import Mathlib

/-!
Verification of the exact-inference engine in `heredity.py`.

The probability routines of the source are embedded shallowly over exact
rational arithmetic (`ℚ` in place of Python floats): the `PROBS` table,
`get_genes_count`, `get_pass_prob`, `joint_probability`, the enumeration
loop of `main` (powersets of the population's names, with the evidence
filter), and `normalize`.  A population is a list of `Person` records as
produced by `load_data`: a name, optional mother and father names, and an
optional observed trait.
-/

namespace Heredity

/-- One row of the population CSV as loaded by `load_data`:
name, optional mother and father (names), optional trait evidence. -/
structure Person where
  name : String
  mother : Option String
  father : Option String
  trait : Option Bool
deriving DecidableEq, Repr

/-- `PROBS["mutation"]`: the mutation probability 0.01, as an exact rational. -/
def mutationRate : ℚ := 1/100

/-- `PROBS["gene"]`: unconditional probabilities for having 2, 1 or 0 copies
of the gene.  The dictionary has exactly the keys 2, 1, 0; any other key is
out of the table (modelled as 0, never reached). -/
def probsGene : ℕ → ℚ
  | 2 => 1/100
  | 1 => 3/100
  | 0 => 96/100
  | _ => 0

/-- `PROBS["trait"]`: probability of the trait value given the number of
copies of the gene.  Keys 2, 1, 0 as in the source. -/
def probsTrait : ℕ → Bool → ℚ
  | 2, true => 65/100
  | 2, false => 35/100
  | 1, true => 56/100
  | 1, false => 44/100
  | 0, true => 1/100
  | 0, false => 99/100
  | _, _ => 0

/-- `get_genes_count(name, one_gene, two_genes)`: 1 if the name is in
`one_gene`, else 2 if in `two_genes`, else 0. -/
def get_genes_count (name : String) (one_gene two_genes : Finset String) : ℕ :=
  if name ∈ one_gene then 1 else if name ∈ two_genes then 2 else 0

/-- `get_genes_count` applied to an optional name: in the source a `None`
parent is contained in no set of names, so its count is 0. -/
def get_genes_count_opt (name : Option String) (one_gene two_genes : Finset String) : ℕ :=
  match name with
  | none => 0
  | some n => get_genes_count n one_gene two_genes

/-- `get_pass_prob(count)`: probability that a parent with `count` copies
passes the gene to the child (`1 - mutation` for 2 copies, `0.5` for 1,
`mutation` otherwise). -/
def get_pass_prob (count : ℕ) : ℚ :=
  if count = 2 then 1 - mutationRate
  else if count = 1 then (1 : ℚ)/2
  else mutationRate

/-- The `child_genes_probs` dictionary built inside `joint_probability`,
looked up at `genes_query` (keys 2, 1, 0). -/
def child_genes_probs (m_pass_prob f_pass_prob : ℚ) (genes_query : ℕ) : ℚ :=
  if genes_query = 2 then m_pass_prob * f_pass_prob
  else if genes_query = 1 then
    m_pass_prob * (1 - f_pass_prob) + f_pass_prob * (1 - m_pass_prob)
  else (1 - f_pass_prob) * (1 - m_pass_prob)

/-- `joint_probability(people, one_gene, two_genes, have_trait)`: the running
product `p`, starting at 1, multiplied for every person by the gene factor
(conditional on the parents when the mother field is present, prior
otherwise) and then by the trait factor. -/
def joint_probability (people : List Person) (one_gene two_genes have_trait : Finset String) : ℚ :=
  people.foldl
    (fun p person =>
      let genes_query := get_genes_count person.name one_gene two_genes
      let trait_query : Bool := decide (person.name ∈ have_trait)
      let p :=
        match person.mother with
        | some mother =>
          let m_genes := get_genes_count mother one_gene two_genes
          let f_genes := get_genes_count_opt person.father one_gene two_genes
          let m_pass_prob := get_pass_prob m_genes
          let f_pass_prob := get_pass_prob f_genes
          p * child_genes_probs m_pass_prob f_pass_prob genes_query
        | none => p * probsGene genes_query
      p * probsTrait genes_query trait_query)
    1

/-- `names = set(people)` in `main`: the set of member names. -/
def names (people : List Person) : Finset String :=
  (people.map Person.name).toFinset

/-- The `fails_evidence` test of `main`: some member has known trait
evidence that disagrees with its membership in `have_trait`. -/
def fails_evidence (people : List Person) (have_trait : Finset String) : Bool :=
  people.any fun person =>
    match person.trait with
    | none => false
    | some t => t != decide (person.name ∈ have_trait)

/-- The sum of `joint_probability` over all triples enumerated by `main`'s
loops: every `have_trait` subset of the names surviving the evidence check,
every `one_gene` subset, and every `two_genes` subset of the remaining
names. -/
def enumJointSum (people : List Person) : ℚ :=
  ∑ have_trait ∈ (names people).powerset,
    if fails_evidence people have_trait then 0
    else
      ∑ one_gene ∈ (names people).powerset,
        ∑ two_genes ∈ ((names people) \ one_gene).powerset,
          joint_probability people one_gene two_genes have_trait

/-- The gene factor contributed by one person inside `joint_probability`. -/
def hiddenFactor (one_gene two_genes : Finset String) (person : Person) : ℚ :=
  match person.mother with
  | some mother =>
      child_genes_probs
        (get_pass_prob (get_genes_count mother one_gene two_genes))
        (get_pass_prob (get_genes_count_opt person.father one_gene two_genes))
        (get_genes_count person.name one_gene two_genes)
  | none => probsGene (get_genes_count person.name one_gene two_genes)

/-- The trait factor contributed by one person inside `joint_probability`. -/
def emissionFactor (one_gene two_genes have_trait : Finset String) (person : Person) : ℚ :=
  probsTrait (get_genes_count person.name one_gene two_genes)
    (decide (person.name ∈ have_trait))

/-- One person's total contribution to the joint probability. -/
def factor (one_gene two_genes have_trait : Finset String) (person : Person) : ℚ :=
  hiddenFactor one_gene two_genes person *
    emissionFactor one_gene two_genes have_trait person

/-- The joint probability as a product of per-person factors. -/
def prodFactors (people : List Person) (one_gene two_genes have_trait : Finset String) : ℚ :=
  (people.map (factor one_gene two_genes have_trait)).prod

/-- `o` is `none` or a name belonging to `s`. -/
def optMem (o : Option String) (s : Finset String) : Prop :=
  ∀ m, o = some m → m ∈ s

/-- The list order is a topological order of the parent links: every
person's parents (when present) are names already seen, starting from the
set `known`.  With `known = ∅` this says the parent links of the population
form an acyclic forest whose edges point backwards in the list. -/
def topoOK (known : Finset String) : List Person → Prop
  | [] => True
  | q :: rest =>
      optMem q.mother known ∧ optMem q.father known ∧ topoOK (insert q.name known) rest

/-! ### Basic lemmas -/

/-- The running product of `joint_probability` starting from `a`. -/
lemma joint_probability_foldl (people : List Person)
    (one_gene two_genes have_trait : Finset String) (a : ℚ) :
    people.foldl
      (fun p person =>
        let genes_query := get_genes_count person.name one_gene two_genes
        let trait_query : Bool := decide (person.name ∈ have_trait)
        let p :=
          match person.mother with
          | some mother =>
            let m_genes := get_genes_count mother one_gene two_genes
            let f_genes := get_genes_count_opt person.father one_gene two_genes
            let m_pass_prob := get_pass_prob m_genes
            let f_pass_prob := get_pass_prob f_genes
            p * child_genes_probs m_pass_prob f_pass_prob genes_query
          | none => p * probsGene genes_query
        p * probsTrait genes_query trait_query)
      a
    = a * prodFactors people one_gene two_genes have_trait := by
  induction people generalizing a with
  | nil => simp [prodFactors]
  | cons q rest ih =>
      rw [List.foldl_cons, ih]
      have hq : (let genes_query := get_genes_count q.name one_gene two_genes
          let trait_query : Bool := decide (q.name ∈ have_trait)
          let p :=
            match q.mother with
            | some mother =>
              let m_genes := get_genes_count mother one_gene two_genes
              let f_genes := get_genes_count_opt q.father one_gene two_genes
              let m_pass_prob := get_pass_prob m_genes
              let f_pass_prob := get_pass_prob f_genes
              a * child_genes_probs m_pass_prob f_pass_prob genes_query
            | none => a * probsGene genes_query
          p * probsTrait genes_query trait_query)
          = a * factor one_gene two_genes have_trait q := by
        cases hm : q.mother <;>
          simp [factor, hiddenFactor, emissionFactor, hm, mul_assoc]
      rw [hq]
      simp [prodFactors, mul_assoc]

/-- `joint_probability` is the product of the per-person factors. -/
lemma joint_probability_eq_prodFactors (people : List Person)
    (one_gene two_genes have_trait : Finset String) :
    joint_probability people one_gene two_genes have_trait
      = prodFactors people one_gene two_genes have_trait := by
  rw [joint_probability, joint_probability_foldl, one_mul]

/-- The prior over copy counts sums to 1. -/
lemma probsGene_row_sum : probsGene 0 + probsGene 1 + probsGene 2 = 1 := by
  norm_num [probsGene]

/-- Each row of the emission table sums to 1. -/
lemma probsTrait_row_sum (g : ℕ) (hg : g ≤ 2) :
    probsTrait g true + probsTrait g false = 1 := by
  interval_cases g <;> norm_num [probsTrait]

/-- Each conditional child distribution sums to 1, whatever the two passing
probabilities are. -/
lemma child_genes_probs_row_sum (mp fp : ℚ) :
    child_genes_probs mp fp 0 + child_genes_probs mp fp 1 + child_genes_probs mp fp 2 = 1 := by
  norm_num [child_genes_probs]
  ring

/-- Inserting a fresh name into `one_gene` does not change another name's
gene count. -/
lemma get_genes_count_insert_one (n x : String) (h : n ≠ x) (A B : Finset String) :
    get_genes_count n (insert x A) B = get_genes_count n A B := by
  simp [get_genes_count, Finset.mem_insert, h]

/-- Inserting a fresh name into `two_genes` does not change another name's
gene count. -/
lemma get_genes_count_insert_two (n x : String) (h : n ≠ x) (A B : Finset String) :
    get_genes_count n A (insert x B) = get_genes_count n A B := by
  simp [get_genes_count, Finset.mem_insert, h]

/-- Optional-name version of `get_genes_count_insert_one`. -/
lemma get_genes_count_opt_insert_one (o : Option String) (x : String)
    (h : ∀ m, o = some m → m ≠ x) (A B : Finset String) :
    get_genes_count_opt o (insert x A) B = get_genes_count_opt o A B := by
  cases o with
  | none => rfl
  | some n => exact get_genes_count_insert_one n x (h n rfl) A B

/-- Optional-name version of `get_genes_count_insert_two`. -/
lemma get_genes_count_opt_insert_two (o : Option String) (x : String)
    (h : ∀ m, o = some m → m ≠ x) (A B : Finset String) :
    get_genes_count_opt o A (insert x B) = get_genes_count_opt o A B := by
  cases o with
  | none => rfl
  | some n => exact get_genes_count_insert_two n x (h n rfl) A B

/-- `hiddenFactor` of a person with no recorded mother. -/
lemma hiddenFactor_mother_none (A B : Finset String) (p : Person)
    (h : p.mother = none) :
    hiddenFactor A B p = probsGene (get_genes_count p.name A B) := by
  unfold hiddenFactor; rw [h]

/-- `hiddenFactor` of a person with a recorded mother. -/
lemma hiddenFactor_mother_some (A B : Finset String) (p : Person) (m : String)
    (h : p.mother = some m) :
    hiddenFactor A B p
      = child_genes_probs (get_pass_prob (get_genes_count m A B))
          (get_pass_prob (get_genes_count_opt p.father A B))
          (get_genes_count p.name A B) := by
  unfold hiddenFactor; rw [h]

/-- A person's factor does not mention a name that is neither the person
nor one of its parents: inserting such a name into `one_gene`. -/
lemma factor_insert_one (p : Person) (x : String) (A B T : Finset String)
    (h1 : p.name ≠ x) (hm : ∀ m, p.mother = some m → m ≠ x)
    (hf : ∀ m, p.father = some m → m ≠ x) :
    factor (insert x A) B T p = factor A B T p := by
  cases hmo : p.mother with
  | none =>
      unfold factor emissionFactor
      rw [hiddenFactor_mother_none (insert x A) B p hmo,
        hiddenFactor_mother_none A B p hmo,
        get_genes_count_insert_one p.name x h1]
  | some m =>
      unfold factor emissionFactor
      rw [hiddenFactor_mother_some (insert x A) B p m hmo,
        hiddenFactor_mother_some A B p m hmo,
        get_genes_count_insert_one p.name x h1,
        get_genes_count_insert_one m x (hm m hmo),
        get_genes_count_opt_insert_one p.father x hf]

/-- As `factor_insert_one`, for `two_genes`. -/
lemma factor_insert_two (p : Person) (x : String) (A B T : Finset String)
    (h1 : p.name ≠ x) (hm : ∀ m, p.mother = some m → m ≠ x)
    (hf : ∀ m, p.father = some m → m ≠ x) :
    factor A (insert x B) T p = factor A B T p := by
  cases hmo : p.mother with
  | none =>
      unfold factor emissionFactor
      rw [hiddenFactor_mother_none A (insert x B) p hmo,
        hiddenFactor_mother_none A B p hmo,
        get_genes_count_insert_two p.name x h1]
  | some m =>
      unfold factor emissionFactor
      rw [hiddenFactor_mother_some A (insert x B) p m hmo,
        hiddenFactor_mother_some A B p m hmo,
        get_genes_count_insert_two p.name x h1,
        get_genes_count_insert_two m x (hm m hmo),
        get_genes_count_opt_insert_two p.father x hf]

/-- As `factor_insert_one`, for `have_trait` (only the emission factor looks
at `have_trait`, and only at the person's own name). -/
lemma factor_insert_trait (p : Person) (x : String) (A B T : Finset String)
    (h1 : p.name ≠ x) :
    factor A B (insert x T) p = factor A B T p := by
  unfold factor emissionFactor
  rw [show (decide (p.name ∈ insert x T)) = decide (p.name ∈ T) by
    simp [Finset.mem_insert, h1]]

/-- The conditions of the `factor_insert_*` lemmas, for every person of a
list at once. -/
def avoids (L : List Person) (x : String) : Prop :=
  ∀ p ∈ L, p.name ≠ x ∧ (∀ m, p.mother = some m → m ≠ x) ∧
    (∀ m, p.father = some m → m ≠ x)

lemma prodFactors_insert_one (L : List Person) (x : String) (A B T : Finset String)
    (h : avoids L x) :
    prodFactors L (insert x A) B T = prodFactors L A B T := by
  induction L with
  | nil => rfl
  | cons p rest ih =>
      obtain ⟨h1, hm, hf⟩ := h p (List.mem_cons_self p rest)
      simp only [prodFactors, List.map_cons, List.prod_cons] at *
      rw [factor_insert_one p x A B T h1 hm hf,
        ih fun q hq => h q (List.mem_cons_of_mem p hq)]

lemma prodFactors_insert_two (L : List Person) (x : String) (A B T : Finset String)
    (h : avoids L x) :
    prodFactors L A (insert x B) T = prodFactors L A B T := by
  induction L with
  | nil => rfl
  | cons p rest ih =>
      obtain ⟨h1, hm, hf⟩ := h p (List.mem_cons_self p rest)
      simp only [prodFactors, List.map_cons, List.prod_cons] at *
      rw [factor_insert_two p x A B T h1 hm hf,
        ih fun q hq => h q (List.mem_cons_of_mem p hq)]

lemma prodFactors_insert_trait (L : List Person) (x : String) (A B T : Finset String)
    (h : avoids L x) :
    prodFactors L A B (insert x T) = prodFactors L A B T := by
  induction L with
  | nil => rfl
  | cons p rest ih =>
      obtain ⟨h1, _, _⟩ := h p (List.mem_cons_self p rest)
      simp only [prodFactors, List.map_cons, List.prod_cons] at *
      rw [factor_insert_trait p x A B T h1,
        ih fun q hq => h q (List.mem_cons_of_mem p hq)]

/-- `optMem` is monotone in the set. -/
lemma optMem_mono {o : Option String} {s t : Finset String} (hs : s ⊆ t)
    (h : optMem o s) : optMem o t :=
  fun m hm => hs (h m hm)

/-- `topoOK` on a cons, unfolded. -/
lemma topoOK_cons (k : Finset String) (q : Person) (L : List Person) :
    topoOK k (q :: L)
      ↔ optMem q.mother k ∧ optMem q.father k ∧ topoOK (insert q.name k) L :=
  Iff.rfl

/-- `names` on a cons. -/
lemma names_cons (q : Person) (L : List Person) :
    names (q :: L) = insert q.name (names L) := by
  simp [names]

/-- `names` on an append of a single person. -/
lemma names_append_single (L : List Person) (q : Person) :
    names (L ++ [q]) = insert q.name (names L) := by
  simp only [names, List.map_append, List.toFinset_append, List.map_cons,
    List.map_nil, List.toFinset_cons, List.toFinset_nil]
  ext y
  simp only [Finset.mem_union, Finset.mem_insert, Finset.not_mem_empty, or_false,
    Finset.mem_insert]
  tauto

/-- Splitting `topoOK` across an append. -/
lemma topoOK_append (k : Finset String) (L L' : List Person) :
    topoOK k (L ++ L') ↔ topoOK k L ∧ topoOK (k ∪ names L) L' := by
  induction L generalizing k with
  | nil =>
      simp only [List.nil_append, topoOK, true_and, names, List.map_nil,
        List.toFinset_nil, Finset.union_empty]
  | cons q rest ih =>
      rw [List.cons_append, topoOK_cons, topoOK_cons, ih, names_cons]
      have hset : insert q.name k ∪ names rest = k ∪ insert q.name (names rest) := by
        ext y
        simp only [Finset.mem_union, Finset.mem_insert]
        tauto
      rw [hset]
      tauto

/-- In a topologically ordered list every parent reference lands in
`k ∪ names L`. -/
lemma topoOK_parents (k : Finset String) (L : List Person) (h : topoOK k L) :
    ∀ p ∈ L, optMem p.mother (k ∪ names L) ∧ optMem p.father (k ∪ names L) := by
  induction L generalizing k with
  | nil => intro p hp; cases hp
  | cons q rest ih =>
      obtain ⟨hm, hf, htail⟩ := h
      intro p hp
      have hsub : insert q.name k ∪ names rest ⊆ k ∪ names (q :: rest) := by
        intro y hy
        rw [names_cons]
        simp only [Finset.mem_union, Finset.mem_insert] at hy ⊢
        tauto
      have hsub' : k ⊆ k ∪ names (q :: rest) := Finset.subset_union_left
      rcases List.mem_cons.mp hp with rfl | hp'
      · exact ⟨optMem_mono hsub' hm, optMem_mono hsub' hf⟩
      · obtain ⟨hm', hf'⟩ := ih (insert q.name k) htail p hp'
        exact ⟨optMem_mono hsub hm', optMem_mono hsub hf'⟩

/-- `prodFactors` over a list extended by one person. -/
lemma prodFactors_append_single (L : List Person) (q : Person)
    (A B T : Finset String) :
    prodFactors (L ++ [q]) A B T = prodFactors L A B T * factor A B T q := by
  simp [prodFactors]

/-- The six ways the appended person can be classified (gene count 0, 2, 1,
each with trait absent or present) contribute factors summing to 1. -/
lemma factor_six_sum (q : Person) (A B T : Finset String)
    (hA : q.name ∉ A) (hB : q.name ∉ B) (hT : q.name ∉ T)
    (hm : ∀ m, q.mother = some m → m ≠ q.name)
    (hf : ∀ m, q.father = some m → m ≠ q.name) :
    factor A B T q + factor A (insert q.name B) T q + factor (insert q.name A) B T q
      + factor A B (insert q.name T) q
      + factor A (insert q.name B) (insert q.name T) q
      + factor (insert q.name A) B (insert q.name T) q = 1 := by
  have gc0 : get_genes_count q.name A B = 0 := by
    simp [get_genes_count, hA, hB]
  have gc2 : get_genes_count q.name A (insert q.name B) = 2 := by
    simp [get_genes_count, hA]
  have gc1 : get_genes_count q.name (insert q.name A) B = 1 := by
    simp [get_genes_count]
  have dT : decide (q.name ∈ T) = false := by simp [hT]
  have dT' : decide (q.name ∈ insert q.name T) = true := by simp
  cases hmo : q.mother with
  | none =>
      unfold factor emissionFactor
      rw [hiddenFactor_mother_none A B q hmo,
        hiddenFactor_mother_none A (insert q.name B) q hmo,
        hiddenFactor_mother_none (insert q.name A) B q hmo,
        gc0, gc2, gc1, dT, dT']
      norm_num [probsGene, probsTrait]
  | some m =>
      unfold factor emissionFactor
      rw [hiddenFactor_mother_some A B q m hmo,
        hiddenFactor_mother_some A (insert q.name B) q m hmo,
        hiddenFactor_mother_some (insert q.name A) B q m hmo,
        get_genes_count_insert_two m q.name (hm m hmo) A B,
        get_genes_count_insert_one m q.name (hm m hmo) A B,
        get_genes_count_opt_insert_two q.father q.name hf A B,
        get_genes_count_opt_insert_one q.father q.name hf A B,
        gc0, gc2, gc1, dT, dT']
      norm_num [child_genes_probs, probsTrait]
      ring

/-- Summing a two-set function over all pairs `(A, B)` with
`A ⊆ insert x S` and `B ⊆ insert x S \ A` splits, when `x ∉ S`, into the
three placements of `x` (in neither set, in `B`, in `A`) over the pairs
drawn from `S`. -/
lemma double_sum_powerset_insert {α M : Type*} [DecidableEq α] [AddCommMonoid M]
    (S : Finset α) (x : α) (hx : x ∉ S) (G : Finset α → Finset α → M) :
    (∑ A ∈ (insert x S).powerset, ∑ B ∈ ((insert x S) \ A).powerset, G A B)
      = ∑ A ∈ S.powerset, ∑ B ∈ (S \ A).powerset,
          (G A B + G A (insert x B) + G (insert x A) B) := by
  rw [Finset.sum_powerset_insert hx]
  have h1 : ∀ A ∈ S.powerset,
      (∑ B ∈ ((insert x S) \ A).powerset, G A B)
        = ∑ B ∈ (S \ A).powerset, (G A B + G A (insert x B)) := by
    intro A hA
    have hxA : x ∉ A := fun hxa => hx (Finset.mem_powerset.mp hA hxa)
    have hdiff : (insert x S) \ A = insert x (S \ A) := by
      ext y
      simp only [Finset.mem_sdiff, Finset.mem_insert]
      constructor
      · rintro ⟨(rfl | hyS), hyA⟩
        · exact Or.inl rfl
        · exact Or.inr ⟨hyS, hyA⟩
      · rintro (rfl | ⟨hyS, hyA⟩)
        · exact ⟨Or.inl rfl, hxA⟩
        · exact ⟨Or.inr hyS, hyA⟩
    have hxSA : x ∉ S \ A := fun hmem => hx (Finset.mem_sdiff.mp hmem).1
    rw [hdiff, Finset.sum_powerset_insert hxSA, ← Finset.sum_add_distrib]
  have h2 : ∀ A ∈ S.powerset,
      (∑ B ∈ ((insert x S) \ (insert x A)).powerset, G (insert x A) B)
        = ∑ B ∈ (S \ A).powerset, G (insert x A) B := by
    intro A hA
    have hdiff : (insert x S) \ (insert x A) = S \ A := by
      ext y
      simp only [Finset.mem_sdiff, Finset.mem_insert]
      constructor
      · rintro ⟨(rfl | hyS), hy⟩
        · exact absurd (Or.inl rfl) hy
        · push_neg at hy
          exact ⟨hyS, hy.2⟩
      · rintro ⟨hyS, hyA⟩
        refine ⟨Or.inr hyS, ?_⟩
        rintro (rfl | h)
        · exact hx hyS
        · exact hyA h
    rw [hdiff]
  calc
    (∑ A ∈ S.powerset, ∑ B ∈ ((insert x S) \ A).powerset, G A B)
        + ∑ A ∈ S.powerset, ∑ B ∈ ((insert x S) \ (insert x A)).powerset, G (insert x A) B
      = (∑ A ∈ S.powerset, ∑ B ∈ (S \ A).powerset, (G A B + G A (insert x B)))
          + ∑ A ∈ S.powerset, ∑ B ∈ (S \ A).powerset, G (insert x A) B := by
        rw [Finset.sum_congr rfl h1, Finset.sum_congr rfl h2]
    _ = ∑ A ∈ S.powerset, ∑ B ∈ (S \ A).powerset,
          (G A B + G A (insert x B) + G (insert x A) B) := by
        rw [← Finset.sum_add_distrib]
        refine Finset.sum_congr rfl fun A _ => ?_
        rw [← Finset.sum_add_distrib]

/-- Core argument of C1: for a topologically ordered, duplicate-free
population, the per-person factor products summed over every gene/trait
classification equal 1. -/
lemma sum_prodFactors_one : ∀ L : List Person,
    (L.map Person.name).Nodup → topoOK ∅ L →
    (∑ T ∈ (names L).powerset, ∑ A ∈ (names L).powerset,
      ∑ B ∈ ((names L) \ A).powerset, prodFactors L A B T) = 1 := by
  intro L
  induction L using List.reverseRecOn with
  | nil => intro _ _; simp [names, prodFactors]
  | append_singleton L q ih =>
      intro hnodup htopo
      rw [show (L ++ [q]).map Person.name = L.map Person.name ++ [q.name] by simp]
        at hnodup
      have hnodupL : (L.map Person.name).Nodup := (List.nodup_append.mp hnodup).1
      have hxnotin : q.name ∉ L.map Person.name := fun hmem =>
        (List.nodup_append.mp hnodup).2.2 hmem (List.mem_singleton.mpr rfl)
      have hx : q.name ∉ names L := fun h => hxnotin (List.mem_toFinset.mp h)
      rw [topoOK_append] at htopo
      obtain ⟨htopoL, hq⟩ := htopo
      rw [Finset.empty_union, topoOK_cons] at hq
      obtain ⟨hqm, hqf, -⟩ := hq
      have hqm' : ∀ m, q.mother = some m → m ≠ q.name :=
        fun m h heq => hx (heq ▸ hqm m h)
      have hqf' : ∀ m, q.father = some m → m ≠ q.name :=
        fun m h heq => hx (heq ▸ hqf m h)
      have havoid : avoids L q.name := by
        intro p hp
        have hpname : p.name ∈ names L :=
          List.mem_toFinset.mpr (List.mem_map_of_mem Person.name hp)
        refine ⟨fun heq => hx (heq ▸ hpname), ?_, ?_⟩
        · intro m hm heq
          have hmem := (topoOK_parents ∅ L htopoL p hp).1 m hm
          rw [Finset.empty_union] at hmem
          exact hx (heq ▸ hmem)
        · intro m hm heq
          have hmem := (topoOK_parents ∅ L htopoL p hp).2 m hm
          rw [Finset.empty_union] at hmem
          exact hx (heq ▸ hmem)
      rw [names_append_single, Finset.sum_powerset_insert hx]
      simp only [double_sum_powerset_insert (names L) q.name hx]
      rw [← Finset.sum_add_distrib]
      have hcollapse : ∀ T ∈ (names L).powerset,
          ((∑ A ∈ (names L).powerset, ∑ B ∈ ((names L) \ A).powerset,
              (prodFactors (L ++ [q]) A B T
                + prodFactors (L ++ [q]) A (insert q.name B) T
                + prodFactors (L ++ [q]) (insert q.name A) B T))
            + ∑ A ∈ (names L).powerset, ∑ B ∈ ((names L) \ A).powerset,
              (prodFactors (L ++ [q]) A B (insert q.name T)
                + prodFactors (L ++ [q]) A (insert q.name B) (insert q.name T)
                + prodFactors (L ++ [q]) (insert q.name A) B (insert q.name T)))
          = ∑ A ∈ (names L).powerset, ∑ B ∈ ((names L) \ A).powerset,
              prodFactors L A B T := by
        intro T hT
        have hxT : q.name ∉ T := fun h => hx (Finset.mem_powerset.mp hT h)
        rw [← Finset.sum_add_distrib]
        refine Finset.sum_congr rfl fun A hA => ?_
        have hxA : q.name ∉ A := fun h => hx (Finset.mem_powerset.mp hA h)
        rw [← Finset.sum_add_distrib]
        refine Finset.sum_congr rfl fun B hB => ?_
        have hxB : q.name ∉ B := fun h =>
          hx (Finset.mem_sdiff.mp (Finset.mem_powerset.mp hB h)).1
        simp only [prodFactors_append_single]
        rw [prodFactors_insert_trait L q.name A B T havoid,
          prodFactors_insert_trait L q.name A (insert q.name B) T havoid,
          prodFactors_insert_trait L q.name (insert q.name A) B T havoid,
          prodFactors_insert_two L q.name A B T havoid,
          prodFactors_insert_one L q.name A B T havoid]
        calc
          prodFactors L A B T * factor A B T q
              + prodFactors L A B T * factor A (insert q.name B) T q
              + prodFactors L A B T * factor (insert q.name A) B T q
              + (prodFactors L A B T * factor A B (insert q.name T) q
                + prodFactors L A B T * factor A (insert q.name B) (insert q.name T) q
                + prodFactors L A B T * factor (insert q.name A) B (insert q.name T) q)
            = prodFactors L A B T *
                (factor A B T q + factor A (insert q.name B) T q
                  + factor (insert q.name A) B T q
                  + factor A B (insert q.name T) q
                  + factor A (insert q.name B) (insert q.name T) q
                  + factor (insert q.name A) B (insert q.name T) q) := by ring
          _ = prodFactors L A B T * 1 := by
              rw [factor_six_sum q A B T hxA hxB hxT hqm' hqf']
          _ = prodFactors L A B T := mul_one _
      calc
        (∑ T ∈ (names L).powerset,
            ((∑ A ∈ (names L).powerset, ∑ B ∈ ((names L) \ A).powerset,
                (prodFactors (L ++ [q]) A B T
                  + prodFactors (L ++ [q]) A (insert q.name B) T
                  + prodFactors (L ++ [q]) (insert q.name A) B T))
              + ∑ A ∈ (names L).powerset, ∑ B ∈ ((names L) \ A).powerset,
                (prodFactors (L ++ [q]) A B (insert q.name T)
                  + prodFactors (L ++ [q]) A (insert q.name B) (insert q.name T)
                  + prodFactors (L ++ [q]) (insert q.name A) B (insert q.name T))))
          = ∑ T ∈ (names L).powerset, ∑ A ∈ (names L).powerset,
              ∑ B ∈ ((names L) \ A).powerset, prodFactors L A B T :=
            Finset.sum_congr rfl hcollapse
        _ = 1 := ih hnodupL htopoL

/-- With no evidence anywhere, the evidence filter passes every subset. -/
lemma fails_evidence_of_no_evidence (people : List Person)
    (hev : ∀ q ∈ people, q.trait = none) (T : Finset String) :
    fails_evidence people T = false := by
  rw [fails_evidence, List.any_eq_false]
  intro p hp
  rw [hev p hp]
  simp

end Heredity

open Heredity in
/-- C1: for a population forming a valid parent-forest (names distinct,
every parent link pointing to an earlier member, every member with zero or
two parents) and with no trait evidence, the sum of `joint_probability`
over all triples enumerated by `main` — every `have_trait` subset, every
`one_gene` subset, and every `two_genes` subset disjoint from `one_gene` —
is exactly 1 in rational arithmetic. -/
theorem heredity_enum_joint_sum_eq_one (people : List Person)
    (hnodup : (people.map Person.name).Nodup)
    (htopo : topoOK ∅ people)
    (_hpar : ∀ q ∈ people, q.mother.isSome = q.father.isSome)
    (hev : ∀ q ∈ people, q.trait = none) :
    enumJointSum people = 1 := by
  rw [enumJointSum]
  simp only [fails_evidence_of_no_evidence people hev, Bool.false_eq_true,
    if_false, joint_probability_eq_prodFactors]
  exact sum_prodFactors_one people hnodup htopo

open Heredity in
/-- Witness for C1 at a concrete three-member family: two founders and one
child, no evidence. -/
theorem heredity_enum_joint_sum_eq_one_witness :
    enumJointSum
      [⟨"m", none, none, none⟩, ⟨"f", none, none, none⟩,
        ⟨"c", some "m", some "f", none⟩] = 1 :=
  heredity_enum_joint_sum_eq_one
    [⟨"m", none, none, none⟩, ⟨"f", none, none, none⟩,
      ⟨"c", some "m", some "f", none⟩]
    (by decide) (by simp [topoOK, optMem]) (by decide) (by decide)

namespace Heredity

/-- The per-parent pass probability exactly as the specification words it:
an allele is passed with probability `1 - ε` if the parent carries two
copies, `0.5` if one copy, `ε` if zero copies. -/
def specPassProb (copies : ℕ) : ℚ :=
  if copies = 2 then 1 - mutationRate
  else if copies = 1 then (1 : ℚ)/2
  else mutationRate

/-- The hidden factor exactly as the specification words it: the prior
table value for a parentless member, and for a member with two parents the
combination `m·f` / `m·(1−f)+f·(1−m)` / `(1−m)·(1−f)` of the parents' pass
probabilities according to the member's copy count.  The specification
describes no other shape of member. -/
def specHiddenFactor (one_gene two_genes : Finset String) (q : Person) : ℚ :=
  match q.mother, q.father with
  | none, none => probsGene (get_genes_count q.name one_gene two_genes)
  | some m, some f =>
      let mp := specPassProb (get_genes_count m one_gene two_genes)
      let fp := specPassProb (get_genes_count f one_gene two_genes)
      let g := get_genes_count q.name one_gene two_genes
      if g = 2 then mp * fp
      else if g = 1 then mp * (1 - fp) + fp * (1 - mp)
      else (1 - mp) * (1 - fp)
  | _, _ => 0

/-- The emission factor exactly as the specification words it: the emission
table probability of the member's trait value given its copy count. -/
def specEmissionFactor (one_gene two_genes have_trait : Finset String) (q : Person) : ℚ :=
  probsTrait (get_genes_count q.name one_gene two_genes)
    (decide (q.name ∈ have_trait))

/-- The joint probability exactly as the specification words it: the
product over all members of a hidden factor times an emission factor. -/
def specJointProbability (people : List Person)
    (one_gene two_genes have_trait : Finset String) : ℚ :=
  (people.map (fun q =>
    specHiddenFactor one_gene two_genes q *
      specEmissionFactor one_gene two_genes have_trait q)).prod

end Heredity

open Heredity in
/-- C2: for every population whose members each have zero or two parents
and every configuration with `two_genes` disjoint from `one_gene`,
`joint_probability` returns the product over all members of the hidden
factor times the emission factor described by the specification. -/
theorem heredity_joint_probability_spec (people : List Person)
    (one_gene two_genes have_trait : Finset String)
    (_hdisj : Disjoint one_gene two_genes)
    (hpar : ∀ q ∈ people, q.mother.isSome = q.father.isSome) :
    joint_probability people one_gene two_genes have_trait
      = specJointProbability people one_gene two_genes have_trait := by
  rw [joint_probability_eq_prodFactors, prodFactors, specJointProbability]
  induction people with
  | nil => rfl
  | cons p rest ih =>
      simp only [List.map_cons, List.prod_cons]
      rw [ih fun q hq => hpar q (List.mem_cons_of_mem p hq)]
      have hp := hpar p (List.mem_cons_self p rest)
      have hfac : factor one_gene two_genes have_trait p
          = specHiddenFactor one_gene two_genes p *
              specEmissionFactor one_gene two_genes have_trait p := by
        cases hmo : p.mother with
        | none =>
            cases hfa : p.father with
            | none =>
                rw [factor, hiddenFactor_mother_none one_gene two_genes p hmo,
                  specHiddenFactor, hmo, hfa]
                rfl
            | some f => rw [hmo, hfa] at hp; exact absurd hp (by simp)
        | some m =>
            cases hfa : p.father with
            | none => rw [hmo, hfa] at hp; exact absurd hp (by simp)
            | some f =>
                rw [factor, hiddenFactor_mother_some one_gene two_genes p m hmo,
                  specHiddenFactor, hmo, hfa]
                show child_genes_probs (get_pass_prob (get_genes_count m one_gene two_genes))
                    (get_pass_prob (get_genes_count_opt (some f) one_gene two_genes))
                    (get_genes_count p.name one_gene two_genes) *
                    emissionFactor one_gene two_genes have_trait p
                  = (let mp := specPassProb (get_genes_count m one_gene two_genes)
                     let fp := specPassProb (get_genes_count f one_gene two_genes)
                     let g := get_genes_count p.name one_gene two_genes
                     if g = 2 then mp * fp
                     else if g = 1 then mp * (1 - fp) + fp * (1 - mp)
                     else (1 - mp) * (1 - fp)) *
                    specEmissionFactor one_gene two_genes have_trait p
                rw [show specPassProb = get_pass_prob from rfl,
                  show specEmissionFactor = emissionFactor from rfl,
                  show get_genes_count_opt (some f) one_gene two_genes
                    = get_genes_count f one_gene two_genes from rfl]
                show child_genes_probs (get_pass_prob (get_genes_count m one_gene two_genes))
                    (get_pass_prob (get_genes_count f one_gene two_genes))
                    (get_genes_count p.name one_gene two_genes) *
                    emissionFactor one_gene two_genes have_trait p
                  = (if get_genes_count p.name one_gene two_genes = 2 then
                      get_pass_prob (get_genes_count m one_gene two_genes) *
                        get_pass_prob (get_genes_count f one_gene two_genes)
                    else if get_genes_count p.name one_gene two_genes = 1 then
                      get_pass_prob (get_genes_count m one_gene two_genes) *
                          (1 - get_pass_prob (get_genes_count f one_gene two_genes)) +
                        get_pass_prob (get_genes_count f one_gene two_genes) *
                          (1 - get_pass_prob (get_genes_count m one_gene two_genes))
                    else
                      (1 - get_pass_prob (get_genes_count m one_gene two_genes)) *
                        (1 - get_pass_prob (get_genes_count f one_gene two_genes))) *
                    emissionFactor one_gene two_genes have_trait p
                rw [child_genes_probs]
                split_ifs <;> ring
      rw [hfac]

open Heredity in
/-- Witness for C2 at a concrete three-member family and configuration. -/
theorem heredity_joint_probability_spec_witness :
    joint_probability
        [⟨"m", none, none, none⟩, ⟨"f", none, none, some true⟩,
          ⟨"c", some "m", some "f", none⟩]
        {"m"} {"c"} {"f", "c"}
      = specJointProbability
        [⟨"m", none, none, none⟩, ⟨"f", none, none, some true⟩,
          ⟨"c", some "m", some "f", none⟩]
        {"m"} {"c"} {"f", "c"} :=
  heredity_joint_probability_spec _ _ _ _ (by decide) (by decide)

namespace Heredity

/-- One member's entry of the `probabilities` accumulator of `main`: an
unnormalized weight for each of the three gene counts (HiddenValues) and
each of the two trait values (ObservedValues). -/
structure PersonProbs where
  gene2 : ℚ
  gene1 : ℚ
  gene0 : ℚ
  traitTrue : ℚ
  traitFalse : ℚ
deriving DecidableEq, Repr

/-- The body of `normalize`'s loop for one member: divide the three gene
weights by their sum and the two trait weights by their sum. -/
def normalizePerson (r : PersonProbs) : PersonProbs :=
  let genes_probs_sum := r.gene2 + r.gene1 + r.gene0
  let trait_probs_sum := r.traitTrue + r.traitFalse
  { gene2 := r.gene2 / genes_probs_sum
    gene1 := r.gene1 / genes_probs_sum
    gene0 := r.gene0 / genes_probs_sum
    traitTrue := r.traitTrue / trait_probs_sum
    traitFalse := r.traitFalse / trait_probs_sum }

/-- `normalize(probabilities)`: rescale every member's two distributions in
place. -/
def normalize (probabilities : List (String × PersonProbs)) :
    List (String × PersonProbs) :=
  probabilities.map fun e => (e.1, normalizePerson e.2)

end Heredity

open Heredity in
/-- C3: after `normalize` runs on an accumulator in which every member's
gene weights have a nonzero sum and every member's trait weights have a
nonzero sum, every member's three gene (HiddenValue) weights sum to exactly
1 and its two trait (ObservedValue) weights sum to exactly 1, each
distribution normalized by its own sum. -/
theorem heredity_normalize_sums_eq_one
    (probabilities : List (String × PersonProbs))
    (h : ∀ e ∈ probabilities,
      e.2.gene2 + e.2.gene1 + e.2.gene0 ≠ 0 ∧ e.2.traitTrue + e.2.traitFalse ≠ 0)
    (e : String × PersonProbs) (he : e ∈ Heredity.normalize probabilities) :
    e.2.gene2 + e.2.gene1 + e.2.gene0 = 1 ∧ e.2.traitTrue + e.2.traitFalse = 1 := by
  simp only [Heredity.normalize, List.mem_map] at he
  obtain ⟨a, ha, rfl⟩ := he
  obtain ⟨hg, ht⟩ := h a ha
  constructor
  · show a.2.gene2 / (a.2.gene2 + a.2.gene1 + a.2.gene0)
        + a.2.gene1 / (a.2.gene2 + a.2.gene1 + a.2.gene0)
        + a.2.gene0 / (a.2.gene2 + a.2.gene1 + a.2.gene0) = 1
    rw [div_add_div_same, div_add_div_same, div_self hg]
  · show a.2.traitTrue / (a.2.traitTrue + a.2.traitFalse)
        + a.2.traitFalse / (a.2.traitTrue + a.2.traitFalse) = 1
    rw [div_add_div_same, div_self ht]

open Heredity in
/-- Witness for C3 at a concrete one-member accumulator. -/
theorem heredity_normalize_sums_eq_one_witness :
    (("a", normalizePerson ⟨1, 1, 2, 3, 1⟩) ∈
        Heredity.normalize [("a", (⟨1, 1, 2, 3, 1⟩ : PersonProbs))]) ∧
      ((normalizePerson ⟨1, 1, 2, 3, 1⟩).gene2
          + (normalizePerson ⟨1, 1, 2, 3, 1⟩).gene1
          + (normalizePerson ⟨1, 1, 2, 3, 1⟩).gene0 = 1 ∧
        (normalizePerson ⟨1, 1, 2, 3, 1⟩).traitTrue
          + (normalizePerson ⟨1, 1, 2, 3, 1⟩).traitFalse = 1) :=
  ⟨by simp [Heredity.normalize],
    heredity_normalize_sums_eq_one [("a", ⟨1, 1, 2, 3, 1⟩)]
      (by intro e he; simp only [List.mem_singleton] at he; subst he
          constructor <;> norm_num)
      ("a", normalizePerson ⟨1, 1, 2, 3, 1⟩)
      (by simp [Heredity.normalize])⟩
